import Mathlib

/-!
Verification of the incremental multi-source synchronization and merge engine
in `spectrometer/processor/main.py`.

Python dictionaries are modelled as association lists over `String` keys that
preserve insertion order (a new key is appended at the end, an existing key is
updated in place), exactly as CPython dict / `collections.defaultdict` behave.
Python sets of branch names are modelled as `Finset String`.  External
collaborators (VCS/RCS adapters, the record processor, the mailing-list
reader) are parameters of the model, and calls into the runtime storage are
recorded in an explicit event trace so that ordering claims can be stated.
-/

namespace Spectrometer

/-- Lookup in a Python-style dict (association list, unique keys). -/
def dfind {α : Type} : List (String × α) → String → Option α
  | [], _ => none
  | (k', v) :: rest, k => if k' = k then some v else dfind rest k

/-- `d[k] = v` on a Python dict: update in place if the key exists,
append at the end otherwise. -/
def dset {α : Type} : List (String × α) → String → α → List (String × α)
  | [], k, v => [(k, v)]
  | (k', v') :: rest, k, v =>
    if k' = k then (k', v) :: rest else (k', v') :: dset rest k v

/-- `defaultdict` access-and-mutate: `d[k]` auto-vivifies a default entry
(appended at the end) when `k` is absent, and the accessed entry is mutated
in place by `f`. -/
def dmodify {α : Type} (dflt : α) : List (String × α) → String → (α → α) → List (String × α)
  | [], k, f => [(k, f dflt)]
  | (k', v) :: rest, k, f =>
    if k' = k then (k', f v) :: rest else (k', v) :: dmodify dflt rest k f

/-- The keys of a dict, in insertion order. -/
def dkeys {α : Type} (d : List (String × α)) : List String := d.map Prod.fst

theorem dfind_dset {α : Type} (d : List (String × α)) (k : String) (v : α) :
    dfind (dset d k v) k = some v := by
  induction d with
  | nil => simp [dset, dfind]
  | cons p rest ih =>
    obtain ⟨k', v'⟩ := p
    by_cases h : k' = k
    · simp [dset, dfind, h]
    · simp [dset, dfind, h, ih]

theorem dfind_dset_ne {α : Type} (d : List (String × α)) (k k' : String) (v : α)
    (h : k' ≠ k) : dfind (dset d k v) k' = dfind d k' := by
  have h2 : ¬ k = k' := fun hh => h hh.symm
  induction d with
  | nil => simp [dset, dfind, h2]
  | cons p rest ih =>
    obtain ⟨k₀, v₀⟩ := p
    by_cases h0 : k₀ = k
    · subst h0
      simp [dset, dfind, h2]
    · simp [dset, dfind, h0, ih]

theorem dfind_dmodify_self {α : Type} (dflt : α) (d : List (String × α)) (k : String)
    (f : α → α) :
    dfind (dmodify dflt d k f) k = some (f ((dfind d k).getD dflt)) := by
  induction d with
  | nil => simp [dmodify, dfind]
  | cons p rest ih =>
    obtain ⟨k₀, v₀⟩ := p
    by_cases h0 : k₀ = k
    · subst h0
      simp [dmodify, dfind]
    · simp [dmodify, dfind, h0, ih]

theorem dfind_dmodify_ne {α : Type} (dflt : α) (d : List (String × α)) (k k' : String)
    (f : α → α) (h : k' ≠ k) :
    dfind (dmodify dflt d k f) k' = dfind d k' := by
  have h2 : ¬ k = k' := fun hh => h hh.symm
  induction d with
  | nil => simp [dmodify, dfind, h2]
  | cons p rest ih =>
    obtain ⟨k₀, v₀⟩ := p
    by_cases h0 : k₀ = k
    · subst h0
      simp [dmodify, dfind, h2]
    · simp [dmodify, dfind, h0, ih]

theorem dkeys_dmodify_mem {α : Type} (dflt : α) (d : List (String × α)) (k : String)
    (f : α → α) (hmem : k ∈ dkeys d) :
    dkeys (dmodify dflt d k f) = dkeys d := by
  induction d with
  | nil => simp [dkeys] at hmem
  | cons p rest ih =>
    obtain ⟨k₀, v₀⟩ := p
    by_cases h0 : k₀ = k
    · subst h0
      simp [dmodify, dkeys]
    · have h1 : k ∈ k₀ :: dkeys rest := hmem
      have hrest : k ∈ dkeys rest := by
        rcases List.mem_cons.mp h1 with h | h
        · exact absurd h.symm h0
        · exact h
      have ih' := ih hrest
      simp only [dkeys] at ih' ⊢
      simp only [dmodify, if_neg h0, List.map_cons]
      rw [ih']

theorem dkeys_dmodify_not_mem {α : Type} (dflt : α) (d : List (String × α)) (k : String)
    (f : α → α) (hmem : k ∉ dkeys d) :
    dkeys (dmodify dflt d k f) = dkeys d ++ [k] := by
  induction d with
  | nil => simp [dmodify, dkeys]
  | cons p rest ih =>
    obtain ⟨k₀, v₀⟩ := p
    have h1 : k ∉ k₀ :: dkeys rest := hmem
    have h0 : ¬ k₀ = k := by
      intro hh
      subst hh
      exact h1 (List.mem_cons_self _ _)
    have hrest : k ∉ dkeys rest := fun hh => h1 (List.mem_cons_of_mem _ hh)
    have ih' := ih hrest
    simp only [dkeys] at ih' ⊢
    simp only [dmodify, if_neg h0, List.map_cons, List.cons_append]
    rw [ih']

/-! ## Records and `_merge_commits` (main.py lines 64–69)

A commit record is a dict whose `branches` entry holds a Python set of branch
names; the other fields are opaque to the merge and kept in `rest`.
`_merge_commits(original, new)` mutates `original` and returns a bool telling
the storage layer whether the stored record must be rewritten; the model
returns the mutated record together with that bool. -/

structure CommitRec where
  branches : Finset String
  rest : List (String × String)
  deriving DecidableEq

/-- `_merge_commits`: Python `new['branches'] < original['branches']` is
strict subset; otherwise `original['branches'] |= new['branches']`. -/
def merge_commits (original new : CommitRec) : CommitRec × Bool :=
  if new.branches ⊂ original.branches then
    (original, false)
  else
    ({ original with branches := original.branches ∪ new.branches }, true)

/-! ## `_record_typer` (main.py lines 72–75)

A raw record is a dict; the typer assigns `record['record_type'] = label`
for each record of the stream and yields it. -/

abbrev Rec := List (String × String)

def record_typer (records : List Rec) (record_type : String) : List Rec :=
  records.map (fun record => dset record "record_type" record_type)

/-! ## `apply_corrections` (main.py lines 166–179)

`utils.read_json_from_uri` either fails (`none`) or yields a document whose
`corrections` entry is a list of correction dicts.  The function returns the
argument passed to `runtime_storage_inst.apply_corrections`, or `none` when
the storage primitive is never invoked. -/

structure CorrDoc where
  corrections : List Rec
  deriving DecidableEq

/-- The `valid_corrections` accumulation loop of `apply_corrections`. -/
def valid_corrections (cs : List Rec) : List Rec :=
  cs.foldl (fun acc c => if (dfind c "primary_key").isSome then acc ++ [c] else acc) []

def apply_corrections (fetched : Option CorrDoc) : Option (List Rec) :=
  match fetched with
  | none => none
  | some doc => some (valid_corrections doc.corrections)

theorem valid_corrections_eq_filter (cs : List Rec) :
    valid_corrections cs = cs.filter (fun c => (dfind c "primary_key").isSome) := by
  have h : ∀ (l : List Rec) (acc : List Rec),
      List.foldl (fun acc c => if (dfind c "primary_key").isSome then acc ++ [c] else acc)
        acc l = acc ++ l.filter (fun c => (dfind c "primary_key").isSome) := by
    intro l
    induction l with
    | nil => intro acc; simp
    | cons c rest ih =>
      intro acc
      by_cases hc : (dfind c "primary_key").isSome
      · simp [hc, ih, List.filter_cons, List.append_assoc]
      · simp [hc, ih, List.filter_cons]
  simpa [valid_corrections] using h cs []

/-! ## Claim theorems about the merge policy, the typer and corrections -/

/-- C2 (counterexample): re-ingesting a commit record with exactly the same
branch set is an incoming branch set that is a (non-strict) subset of the
existing one, yet `_merge_commits` returns `True`, signalling that the stored
record must be rewritten — the claim that any subset yields "no update" is
false.  Python's `<` on sets is *strict* subset, so equal branch sets fall
into the update branch. -/
theorem merge_commits_equal_branches_signals_update :
    (CommitRec.mk {"master"} []).branches ⊆ (CommitRec.mk {"master"} []).branches ∧
    (merge_commits (CommitRec.mk {"master"} []) (CommitRec.mk {"master"} [])).2 = true := by
  constructor
  · exact Finset.Subset.refl _
  · rfl

/-- C2 (amended): if the incoming commit record's branch set is a *strict*
subset of the existing record's branch set, `_merge_commits` returns `False`
and leaves the existing record unchanged; if the two branch sets are equal
the existing record's content is also unchanged, but the function returns
`True`, signalling a (redundant) write. -/
theorem merge_commits_strict_subset_noop (original new : CommitRec) :
    (new.branches ⊂ original.branches → merge_commits original new = (original, false)) ∧
    (new.branches = original.branches → merge_commits original new = (original, true)) := by
  constructor
  · intro h
    simp [merge_commits, h]
  · intro h
    have hns : ¬ new.branches ⊂ original.branches := by
      rw [h]
      exact fun hc => absurd rfl hc.ne
    have hu : original.branches ∪ new.branches = original.branches := by
      rw [h, Finset.union_self]
    cases original with
    | mk b r =>
      simp only [merge_commits, if_neg hns, Prod.mk.injEq, and_true]
      simp only at hu
      simp [hu]

/-- C2 (witness for the amended theorem): a strict-subset merge is a silent
no-op, an equal-branch-set merge keeps the record but signals an update. -/
theorem merge_commits_strict_subset_noop_case :
    merge_commits (CommitRec.mk {"master", "stable/X"} []) (CommitRec.mk {"master"} []) =
      (CommitRec.mk {"master", "stable/X"} [], false) ∧
    merge_commits (CommitRec.mk {"master"} []) (CommitRec.mk {"master"} []) =
      (CommitRec.mk {"master"} [], true) :=
  ⟨(merge_commits_strict_subset_noop _ _).1 (by decide),
   (merge_commits_strict_subset_noop _ _).2 rfl⟩

/-- C3: after `_merge_commits` the resulting record's branch set is exactly
the union of the existing and the incoming branch sets, all other fields are
untouched, the stored branch set never shrinks, and when the incoming set is
already contained in the existing one the record is left exactly as it was
(so the `{master}` / `{master, stable/X}` / `{master}` scenario is
idempotent). -/
theorem merge_commits_branches_union (original new : CommitRec) :
    (merge_commits original new).1.branches = original.branches ∪ new.branches ∧
    (merge_commits original new).1.rest = original.rest ∧
    original.branches ⊆ (merge_commits original new).1.branches ∧
    (new.branches ⊆ original.branches → (merge_commits original new).1 = original) := by
  by_cases h : new.branches ⊂ original.branches
  · refine ⟨?_, ?_, ?_, ?_⟩ <;> simp [merge_commits, h]
    exact h.subset
  · refine ⟨?_, ?_, ?_, ?_⟩ <;> simp [merge_commits, h]
    intro hsub
    cases original with
    | mk b r =>
      simp only at hsub ⊢
      simp [Finset.union_eq_left.mpr hsub]

/-- C3 (witness): merging `{master, stable/X}` with incoming `{master}`
yields the union, keeps the other fields, does not shrink, and leaves the
stored record unchanged. -/
theorem merge_commits_branches_union_case :
    (merge_commits (CommitRec.mk {"master", "stable/X"} []) (CommitRec.mk {"master"} [])).1.branches
        = {"master", "stable/X"} ∪ {"master"} ∧
    (merge_commits (CommitRec.mk {"master", "stable/X"} []) (CommitRec.mk {"master"} [])).1.rest
        = [] ∧
    ({"master", "stable/X"} : Finset String) ⊆
      (merge_commits (CommitRec.mk {"master", "stable/X"} []) (CommitRec.mk {"master"} [])).1.branches ∧
    (merge_commits (CommitRec.mk {"master", "stable/X"} []) (CommitRec.mk {"master"} [])).1
        = CommitRec.mk {"master", "stable/X"} [] := by
  have h := merge_commits_branches_union
    (CommitRec.mk {"master", "stable/X"} []) (CommitRec.mk {"master"} [])
  exact ⟨h.1, h.2.1, h.2.2.1, h.2.2.2 (by decide)⟩

/-- C7: `apply_corrections` passes to the storage's correction primitive
exactly the entries of the fetched list that carry a `primary_key` field, in
their original order (a filter); an entry without the key is dropped
individually; when the document cannot be read (`none`) the storage primitive
is never invoked. -/
theorem apply_corrections_primary_key_filter :
    apply_corrections none = none ∧
    ∀ doc : CorrDoc, apply_corrections (some doc) =
      some (doc.corrections.filter (fun c => (dfind c "primary_key").isSome)) := by
  constructor
  · rfl
  · intro doc
    simp [apply_corrections, valid_corrections_eq_filter]

/-- C9: `_record_typer` yields exactly one output record per input record,
in the same order, each carrying `record_type = label`, and with every other
field unchanged. -/
theorem record_typer_stream (records : List Rec) (label : String) :
    (record_typer records label).length = records.length ∧
    ∀ (i : Nat) (r : Rec), records[i]? = some r →
      ∃ r' : Rec, (record_typer records label)[i]? = some r' ∧
        dfind r' "record_type" = some label ∧
        ∀ k : String, k ≠ "record_type" → dfind r' k = dfind r k := by
  constructor
  · simp [record_typer]
  · intro i r hr
    refine ⟨dset r "record_type" label, ?_, ?_, ?_⟩
    · simp [record_typer, List.getElem?_map, hr]
    · exact dfind_dset r "record_type" label
    · intro k hk
      exact dfind_dset_ne r "record_type" k label hk

/-- C9 (witness): typing a one-record stream as `commit` keeps the `author`
field and sets `record_type`. -/
theorem record_typer_stream_case :
    (record_typer [[("author", "alice")]] "commit").length = 1 ∧
    ∃ r' : Rec, (record_typer [[("author", "alice")]] "commit")[0]? = some r' ∧
      dfind r' "record_type" = some "commit" ∧
      ∀ k : String, k ≠ "record_type" → dfind r' k = dfind [("author", "alice")] k :=
  ⟨(record_typer_stream [[("author", "alice")]] "commit").1,
   (record_typer_stream [[("author", "alice")]] "commit").2 0 [("author", "alice")] rfl⟩

/-! ## The source synchronizer (`process_repo`, main.py lines 78–123)

`parse.quote_plus` percent-encodes every character outside the always-safe
set (letters, digits, `_.-`), mapping a space to `+`. -/

def hexUpperDigit (n : Nat) : Char :=
  if n < 10 then Char.ofNat (48 + n) else Char.ofNat (55 + n)

def quote_plus_char (c : Char) : String :=
  if c.isAlphanum || c = '_' || c = '.' || c = '-' then String.singleton c
  else if c = ' ' then "+"
  else String.mk ['%', hexUpperDigit (c.toNat % 256 / 16), hexUpperDigit (c.toNat % 256 % 16)]

def quote_plus (s : String) : String :=
  String.join (s.data.map quote_plus_char)

/-- `'vcs:' + str(parse.quote_plus(uri) + ':' + branch)`. -/
def vcs_key (uri branch : String) : String :=
  "vcs:" ++ (quote_plus uri ++ ":" ++ branch)

/-- `'rcs:' + str(parse.quote_plus(uri) + ':' + branch)`. -/
def rcs_key (uri branch : String) : String :=
  "rcs:" ++ (quote_plus uri ++ ":" ++ branch)

/-- A VCS adapter (external collaborator, `vcs.get_vcs`): `fetch` may raise,
`log branch last_id` streams raw commit records, `get_last_id branch` reports
the adapter's current head. -/
structure Vcs where
  fetch : Except String Unit
  log : String → Option String → List Rec
  get_last_id : String → String

/-- An RCS adapter (`rcs.get_rcs`): `setup` may raise, the rest mirrors
`Vcs`. -/
structure Rcs where
  setup : Except String Unit
  log : String → Option String → List Rec
  get_last_id : String → String

/-- One element of a repository's `releases` list; only the optional
`branch` field is read by `process_repo`. -/
structure Release where
  branch : Option String
  deriving DecidableEq

/-- A configured repository: `repo['uri']` and `repo.get('releases')`
(`none` models an absent key, which makes the Python loop raise
`TypeError`). -/
structure Repo where
  uri : String
  releases : Option (List Release)

/-- The runtime storage's key/value half, as used for cursors. -/
abbrev Store := List (String × String)

/-- Which merge function was passed to `runtime_storage_inst.set_records`. -/
inductive MergePolicy
  | commits
  | records
  | defaultMerge
  deriving DecidableEq

/-- A mutating call into the runtime storage (or the record processor),
in program order. -/
inductive Event
  | setRecords (records : List Rec) (policy : MergePolicy)
  | setByKey (key : String) (value : String)
  | processorUpdate
  deriving DecidableEq

/-- `branches = set(['master'])` plus every `release['branch']`; the Python
set is modelled as a duplicate-free list. -/
def resolve_branches (releases : List Release) : List String :=
  ("master" :: releases.filterMap Release.branch).dedup

/-- The body of `process_repo`'s per-branch loop: commit phase (cursor read,
log since cursor, type, enrich, merge with `_merge_commits`, cursor write
from `get_last_id`) followed by the identically shaped review phase merged
with `utils.merge_records`. -/
def process_branch (vcs_inst : Vcs) (rcs_inst : Rcs) (process : List Rec → List Rec)
    (uri : String) (st : Store) (branch : String) : Store × List Event :=
  let vcs_k := vcs_key uri branch
  let last_id := dfind st vcs_k
  let commit_iterator := vcs_inst.log branch last_id
  let commit_iterator_typed := record_typer commit_iterator "commit"
  let processed_commit_iterator := process commit_iterator_typed
  let new_last := vcs_inst.get_last_id branch
  let st1 := dset st vcs_k new_last
  let rcs_k := rcs_key uri branch
  let last_id2 := dfind st1 rcs_k
  let review_iterator := rcs_inst.log branch last_id2
  let review_iterator_typed := record_typer review_iterator "review"
  let processed_review_iterator := process review_iterator_typed
  let new_last2 := rcs_inst.get_last_id branch
  let st2 := dset st1 rcs_k new_last2
  (st2, [Event.setRecords processed_commit_iterator MergePolicy.commits,
         Event.setByKey vcs_k new_last,
         Event.setRecords processed_review_iterator MergePolicy.records,
         Event.setByKey rcs_k new_last2])

/-- `for branch in branches: ...`, threading the storage state and collecting
the trace of storage calls. -/
def run_branches (vcs_inst : Vcs) (rcs_inst : Rcs) (process : List Rec → List Rec)
    (uri : String) : List String → Store → Store × List Event
  | [], st => (st, [])
  | b :: rest, st =>
    let p := process_branch vcs_inst rcs_inst process uri st b
    let q := run_branches vcs_inst rcs_inst process uri rest p.1
    (q.1, p.2 ++ q.2)

/-- The external collaborators of the synchronizer: the VCS/RCS adapter
factories (`vcs.get_vcs` / `rcs.get_rcs`), the record processor's `process`
stream transform, and the mailing-list reader `mls.log`. -/
structure Env where
  vcs_of : Repo → Vcs
  rcs_of : Repo → Rcs
  process : List Rec → List Rec
  mail_log : String → List Rec

/-- `process_repo`: fetch the VCS, set up the RCS, resolve branches from the
`releases` list, then run both phases for every branch.  The third component
is the exception raised, if any: a failing `fetch`/`setup` propagates, and an
absent `releases` key raises `TypeError` before any branch is processed. -/
def process_repo (env : Env) (repo : Repo) (st : Store) :
    Store × List Event × Option String :=
  match (env.vcs_of repo).fetch with
  | .error e => (st, [], some e)
  | .ok _ =>
    match (env.rcs_of repo).setup with
    | .error e => (st, [], some e)
    | .ok _ =>
      match repo.releases with
      | none => (st, [], some "TypeError: argument of type NoneType is not iterable")
      | some releases =>
        let branches := resolve_branches releases
        let p := run_branches (env.vcs_of repo) (env.rcs_of repo) env.process repo.uri branches st
        (p.1, p.2, none)

/-- `process_mail_list`: type the mailing-list stream as `email`, enrich it
and merge with the default policy. -/
def process_mail_list (env : Env) (uri : String) : Event :=
  Event.setRecords (env.process (record_typer (env.mail_log uri) "email")) MergePolicy.defaultMerge

/-- The repository loop of `update_records`: no exception handling, so the
first raised exception stops the loop and propagates. -/
def run_repos (env : Env) : List Repo → Store → Store × List Event × Option String
  | [], st => (st, [], none)
  | repo :: rest, st =>
    let p := process_repo env repo st
    match p.2.2 with
    | some e => (p.1, p.2.1, some e)
    | none =>
      let q := run_repos env rest p.1
      (q.1, p.2.1 ++ q.2.1, q.2.2)

/-- `update_records`: process every repository, then every mailing list, then
invoke the record processor's `update()`.  The repository list stands for
`utils.load_repos(runtime_storage_inst)` and the mailing-list list for the
stored `mail_lists` key. -/
def update_records (env : Env) (repos : List Repo) (mail_lists : List String)
    (st : Store) : Store × List Event × Option String :=
  let p := run_repos env repos st
  match p.2.2 with
  | some e => (p.1, p.2.1, some e)
  | none =>
    (p.1, p.2.1 ++ mail_lists.map (process_mail_list env) ++ [Event.processorUpdate], none)

/-! ## Cursor-key facts -/

theorem string_append_left_cancel (p a b : String) (h : p ++ a = p ++ b) : a = b := by
  have hd := congrArg String.data h
  rw [String.data_append, String.data_append] at hd
  exact String.ext (List.append_cancel_left hd)

theorem vcs_key_inj (uri b b' : String) (h : vcs_key uri b = vcs_key uri b') : b = b' := by
  have h1 : "vcs:" ++ (quote_plus uri ++ ":" ++ b) = "vcs:" ++ (quote_plus uri ++ ":" ++ b') := h
  exact string_append_left_cancel (quote_plus uri ++ ":") b b'
    (string_append_left_cancel "vcs:" _ _ h1)

theorem rcs_key_inj (uri b b' : String) (h : rcs_key uri b = rcs_key uri b') : b = b' := by
  have h1 : "rcs:" ++ (quote_plus uri ++ ":" ++ b) = "rcs:" ++ (quote_plus uri ++ ":" ++ b') := h
  exact string_append_left_cancel (quote_plus uri ++ ":") b b'
    (string_append_left_cancel "rcs:" _ _ h1)

theorem vcs_key_ne_rcs_key (uri b uri' b' : String) : vcs_key uri b ≠ rcs_key uri' b' := by
  intro h
  have h1 : "vcs:" ++ (quote_plus uri ++ ":" ++ b) = "rcs:" ++ (quote_plus uri' ++ ":" ++ b') := h
  have hd := congrArg String.data h1
  simp only [String.data_append] at hd
  simp at hd

/-! ## C1: the cursor is only written after the corresponding merge -/

theorem run_branches_cursor_after_merge (vcs_inst : Vcs) (rcs_inst : Rcs)
    (process : List Rec → List Rec) (uri : String) (branches : List String) (st : Store) :
    (∀ (b v : String) (j : Nat),
      (run_branches vcs_inst rcs_inst process uri branches st).2[j]? =
        some (Event.setByKey (vcs_key uri b) v) →
      ∃ (i : Nat) (cur : Option String), i < j ∧
        (run_branches vcs_inst rcs_inst process uri branches st).2[i]? =
          some (Event.setRecords (process (record_typer (vcs_inst.log b cur) "commit"))
            MergePolicy.commits)) ∧
    (∀ (b v : String) (j : Nat),
      (run_branches vcs_inst rcs_inst process uri branches st).2[j]? =
        some (Event.setByKey (rcs_key uri b) v) →
      ∃ (i : Nat) (cur : Option String), i < j ∧
        (run_branches vcs_inst rcs_inst process uri branches st).2[i]? =
          some (Event.setRecords (process (record_typer (rcs_inst.log b cur) "review"))
            MergePolicy.records)) := by
  induction branches generalizing st with
  | nil =>
    constructor <;> (intro b v j h; rw [run_branches] at h; simp at h)
  | cons b₀ rest ih =>
    have hE : (run_branches vcs_inst rcs_inst process uri (b₀ :: rest) st).2 =
        Event.setRecords
            (process (record_typer (vcs_inst.log b₀ (dfind st (vcs_key uri b₀))) "commit"))
            MergePolicy.commits ::
        Event.setByKey (vcs_key uri b₀) (vcs_inst.get_last_id b₀) ::
        Event.setRecords
            (process (record_typer
              (rcs_inst.log b₀ (dfind (dset st (vcs_key uri b₀) (vcs_inst.get_last_id b₀))
                (rcs_key uri b₀))) "review"))
            MergePolicy.records ::
        Event.setByKey (rcs_key uri b₀) (rcs_inst.get_last_id b₀) ::
        (run_branches vcs_inst rcs_inst process uri rest
          (process_branch vcs_inst rcs_inst process uri st b₀).1).2 := rfl
    obtain ⟨ih1, ih2⟩ := ih (process_branch vcs_inst rcs_inst process uri st b₀).1
    constructor
    · intro b v j h
      rw [hE] at h
      cases j with
      | zero => simp at h
      | succ j =>
      cases j with
      | zero =>
        simp only [List.getElem?_cons_succ, List.getElem?_cons_zero, Option.some.injEq,
          Event.setByKey.injEq] at h
        obtain ⟨hk, hv⟩ := h
        obtain rfl := vcs_key_inj uri b₀ b hk
        refine ⟨0, dfind st (vcs_key uri b₀), by omega, ?_⟩
        rw [hE]
        rfl
      | succ j =>
      cases j with
      | zero => simp at h
      | succ j =>
      cases j with
      | zero =>
        simp only [List.getElem?_cons_succ, List.getElem?_cons_zero, Option.some.injEq,
          Event.setByKey.injEq] at h
        exact absurd h.1.symm (vcs_key_ne_rcs_key uri b uri b₀)
      | succ n =>
        simp only [List.getElem?_cons_succ] at h
        obtain ⟨i, cur, hij, hi⟩ := ih1 b v n h
        refine ⟨i + 4, cur, by omega, ?_⟩
        rw [hE]
        simpa only [List.getElem?_cons_succ] using hi
    · intro b v j h
      rw [hE] at h
      cases j with
      | zero => simp at h
      | succ j =>
      cases j with
      | zero =>
        simp only [List.getElem?_cons_succ, List.getElem?_cons_zero, Option.some.injEq,
          Event.setByKey.injEq] at h
        exact absurd h.1 (vcs_key_ne_rcs_key uri b₀ uri b)
      | succ j =>
      cases j with
      | zero => simp at h
      | succ j =>
      cases j with
      | zero =>
        simp only [List.getElem?_cons_succ, List.getElem?_cons_zero, Option.some.injEq,
          Event.setByKey.injEq] at h
        obtain ⟨hk, hv⟩ := h
        obtain rfl := rcs_key_inj uri b₀ b hk
        refine ⟨2, dfind (dset st (vcs_key uri b₀) (vcs_inst.get_last_id b₀)) (rcs_key uri b₀),
          by omega, ?_⟩
        rw [hE]
        rfl
      | succ n =>
        simp only [List.getElem?_cons_succ] at h
        obtain ⟨i, cur, hij, hi⟩ := ih2 b v n h
        refine ⟨i + 4, cur, by omega, ?_⟩
        rw [hE]
        simpa only [List.getElem?_cons_succ] using hi

/-- C1: in `process_repo`, every write of a commit cursor `vcs:<uri>:<branch>`
is preceded in the storage-call trace by a `set_records` merge of that
branch's typed and enriched commit stream (merged with `_merge_commits`), and
every write of a review cursor `rcs:<uri>:<branch>` is preceded by the
`set_records` merge of that branch's typed and enriched review stream; a
cursor is never written before the corresponding merge. -/
theorem process_repo_cursor_after_merge (env : Env) (repo : Repo) (st : Store) :
    (∀ (b v : String) (j : Nat),
      (process_repo env repo st).2.1[j]? = some (Event.setByKey (vcs_key repo.uri b) v) →
      ∃ (i : Nat) (cur : Option String), i < j ∧
        (process_repo env repo st).2.1[i]? =
          some (Event.setRecords
            (env.process (record_typer ((env.vcs_of repo).log b cur) "commit"))
            MergePolicy.commits)) ∧
    (∀ (b v : String) (j : Nat),
      (process_repo env repo st).2.1[j]? = some (Event.setByKey (rcs_key repo.uri b) v) →
      ∃ (i : Nat) (cur : Option String), i < j ∧
        (process_repo env repo st).2.1[i]? =
          some (Event.setRecords
            (env.process (record_typer ((env.rcs_of repo).log b cur) "review"))
            MergePolicy.records)) := by
  cases hf : (env.vcs_of repo).fetch with
  | error e =>
    constructor <;> (intro b v j h; simp [process_repo, hf] at h)
  | ok u =>
    cases hs : (env.rcs_of repo).setup with
    | error e =>
      constructor <;> (intro b v j h; simp [process_repo, hf, hs] at h)
    | ok u' =>
      cases hrel : repo.releases with
      | none =>
        constructor <;> (intro b v j h; simp [process_repo, hf, hs, hrel] at h)
      | some releases =>
        have h := run_branches_cursor_after_merge (env.vcs_of repo) (env.rcs_of repo)
          env.process repo.uri (resolve_branches releases) st
        constructor
        · intro b v j hj
          simp only [process_repo, hf, hs, hrel] at hj ⊢
          exact h.1 b v j hj
        · intro b v j hj
          simp only [process_repo, hf, hs, hrel] at hj ⊢
          exact h.2 b v j hj

/-- Concrete collaborators used by the witnesses: adapters that report no new
records but a definite head id. -/
def sampleVcs : Vcs :=
  { fetch := Except.ok (), log := fun _ _ => [], get_last_id := fun _ => "head1" }

def sampleRcs : Rcs :=
  { setup := Except.ok (), log := fun _ _ => [], get_last_id := fun _ => "head2" }

def sampleEnv : Env :=
  { vcs_of := fun _ => sampleVcs, rcs_of := fun _ => sampleRcs,
    process := id, mail_log := fun _ => [] }

def sampleRepo : Repo :=
  { uri := "git://example.org/repo", releases := some [] }

/-- C1 (witness): on a concrete repository whose trace writes the `master`
commit cursor at position 1, the corresponding commit merge sits strictly
earlier in the trace. -/
theorem process_repo_cursor_after_merge_case :
    ∃ (i : Nat) (cur : Option String), i < 1 ∧
      (process_repo sampleEnv sampleRepo []).2.1[i]? =
        some (Event.setRecords
          (sampleEnv.process (record_typer ((sampleEnv.vcs_of sampleRepo).log "master" cur) "commit"))
          MergePolicy.commits) :=
  (process_repo_cursor_after_merge sampleEnv sampleRepo []).1 "master" "head1" 1 rfl

/-! ## C8: the commit cursor is refreshed to the adapter head, unconditionally -/

theorem run_branches_frame (vcs_inst : Vcs) (rcs_inst : Rcs)
    (process : List Rec → List Rec) (uri : String) (branches : List String) :
    ∀ (st : Store) (k : String),
      (∀ b ∈ branches, k ≠ vcs_key uri b ∧ k ≠ rcs_key uri b) →
      dfind (run_branches vcs_inst rcs_inst process uri branches st).1 k = dfind st k := by
  induction branches with
  | nil => intro st k h; rfl
  | cons b₀ rest ih =>
    intro st k h
    have h₀ := h b₀ (List.mem_cons_self _ _)
    have hrest : ∀ b ∈ rest, k ≠ vcs_key uri b ∧ k ≠ rcs_key uri b :=
      fun b hb => h b (List.mem_cons_of_mem _ hb)
    have h1 : (run_branches vcs_inst rcs_inst process uri (b₀ :: rest) st).1 =
        (run_branches vcs_inst rcs_inst process uri rest
          (process_branch vcs_inst rcs_inst process uri st b₀).1).1 := rfl
    have h2 : (process_branch vcs_inst rcs_inst process uri st b₀).1 =
        dset (dset st (vcs_key uri b₀) (vcs_inst.get_last_id b₀)) (rcs_key uri b₀)
          (rcs_inst.get_last_id b₀) := rfl
    rw [h1, ih _ k hrest, h2, dfind_dset_ne _ _ _ _ h₀.2, dfind_dset_ne _ _ _ _ h₀.1]

theorem run_branches_head (vcs_inst : Vcs) (rcs_inst : Rcs)
    (process : List Rec → List Rec) (uri : String) (branches : List String) :
    ∀ st : Store, branches.Nodup → ∀ b ∈ branches,
      dfind (run_branches vcs_inst rcs_inst process uri branches st).1 (vcs_key uri b) =
        some (vcs_inst.get_last_id b) ∧
      Event.setByKey (vcs_key uri b) (vcs_inst.get_last_id b) ∈
        (run_branches vcs_inst rcs_inst process uri branches st).2 := by
  induction branches with
  | nil => intro st hnd b hb; simp at hb
  | cons b₀ rest ih =>
    intro st hnd b hb
    have hnd' := List.nodup_cons.mp hnd
    have h1 : (run_branches vcs_inst rcs_inst process uri (b₀ :: rest) st).1 =
        (run_branches vcs_inst rcs_inst process uri rest
          (process_branch vcs_inst rcs_inst process uri st b₀).1).1 := rfl
    have hE : (run_branches vcs_inst rcs_inst process uri (b₀ :: rest) st).2 =
        (process_branch vcs_inst rcs_inst process uri st b₀).2 ++
        (run_branches vcs_inst rcs_inst process uri rest
          (process_branch vcs_inst rcs_inst process uri st b₀).1).2 := rfl
    rcases List.mem_cons.mp hb with rfl | hbr
    · constructor
      · have hfr : ∀ b' ∈ rest, vcs_key uri b ≠ vcs_key uri b' ∧ vcs_key uri b ≠ rcs_key uri b' := by
          intro b' hb'
          refine ⟨?_, vcs_key_ne_rcs_key uri b uri b'⟩
          intro hk
          exact hnd'.1 (vcs_key_inj uri b b' hk ▸ hb')
        have h2 : (process_branch vcs_inst rcs_inst process uri st b).1 =
            dset (dset st (vcs_key uri b) (vcs_inst.get_last_id b)) (rcs_key uri b)
              (rcs_inst.get_last_id b) := rfl
        rw [h1, run_branches_frame vcs_inst rcs_inst process uri rest _ _ hfr, h2,
          dfind_dset_ne _ _ _ _ (vcs_key_ne_rcs_key uri b uri b), dfind_dset]
      · rw [hE]
        refine List.mem_append_left _ ?_
        have h3 : (process_branch vcs_inst rcs_inst process uri st b).2 =
            [Event.setRecords
                (process (record_typer (vcs_inst.log b (dfind st (vcs_key uri b))) "commit"))
                MergePolicy.commits,
             Event.setByKey (vcs_key uri b) (vcs_inst.get_last_id b),
             Event.setRecords
                (process (record_typer
                  (rcs_inst.log b (dfind (dset st (vcs_key uri b) (vcs_inst.get_last_id b))
                    (rcs_key uri b))) "review"))
                MergePolicy.records,
             Event.setByKey (rcs_key uri b) (rcs_inst.get_last_id b)] := rfl
        rw [h3]
        simp
    · have ihh := ih (process_branch vcs_inst rcs_inst process uri st b₀).1 hnd'.2 b hbr
      constructor
      · rw [h1]
        exact ihh.1
      · rw [hE]
        exact List.mem_append_right _ ihh.2

/-- C8: for every resolved branch, after `process_repo` completes the stored
commit cursor `vcs:<uri>:<branch>` equals the adapter's own head
`get_last_id(branch)`, and a `set_by_key` write of exactly that value occurs
in the trace — unconditionally, whatever the log since the previous cursor
yielded (the witness runs it with an adapter whose log is empty). -/
theorem process_repo_cursor_head_refresh (env : Env) (repo : Repo) (st : Store)
    (releases : List Release)
    (hrel : repo.releases = some releases)
    (hf : (env.vcs_of repo).fetch = Except.ok ())
    (hs : (env.rcs_of repo).setup = Except.ok ()) :
    ∀ b ∈ resolve_branches releases,
      dfind (process_repo env repo st).1 (vcs_key repo.uri b) =
        some ((env.vcs_of repo).get_last_id b) ∧
      Event.setByKey (vcs_key repo.uri b) ((env.vcs_of repo).get_last_id b) ∈
        (process_repo env repo st).2.1 := by
  intro b hb
  have h := run_branches_head (env.vcs_of repo) (env.rcs_of repo) env.process repo.uri
    (resolve_branches releases) st (List.nodup_dedup _) b hb
  constructor
  · simpa only [process_repo, hrel, hf, hs] using h.1
  · simpa only [process_repo, hrel, hf, hs] using h.2

/-- C8 (witness): with an adapter that reports no new records and head
`head1`, the `master` commit cursor is still written and ends up at
`head1`. -/
theorem process_repo_cursor_head_refresh_case :
    dfind (process_repo sampleEnv sampleRepo []).1 (vcs_key sampleRepo.uri "master") =
      some ((sampleEnv.vcs_of sampleRepo).get_last_id "master") ∧
    Event.setByKey (vcs_key sampleRepo.uri "master")
        ((sampleEnv.vcs_of sampleRepo).get_last_id "master") ∈
      (process_repo sampleEnv sampleRepo []).2.1 :=
  process_repo_cursor_head_refresh sampleEnv sampleRepo [] [] rfl rfl rfl "master"
    (by simp [resolve_branches])

/-! ## C5: branch resolution -/

/-- C5: `process_repo` synchronizes exactly `master` plus every release
branch named by a `branch` field: the resolved branch set is
`{master} ∪ {release.branch}`, a repository with a declared empty release
list resolves to exactly `[master]`, the spec's two-release example resolves
to `{master, stable/kilo}`, and when the adapters' fetch/setup succeed the
call completes without an exception. -/
theorem process_repo_branch_resolution (releases : List Release) :
    (resolve_branches releases).toFinset =
      insert "master" (releases.filterMap Release.branch).toFinset ∧
    resolve_branches [] = ["master"] ∧
    (resolve_branches [Release.mk (some "stable/kilo"), Release.mk none]).toFinset =
      {"master", "stable/kilo"} ∧
    ∀ (env : Env) (repo : Repo) (st : Store),
      repo.releases = some releases →
      (env.vcs_of repo).fetch = Except.ok () →
      (env.rcs_of repo).setup = Except.ok () →
      (process_repo env repo st).2.2 = none := by
  refine ⟨?_, rfl, by decide, ?_⟩
  · rw [resolve_branches]
    ext a
    simp [List.mem_dedup]
  · intro env repo st hrel hf hs
    simp only [process_repo, hrel, hf, hs]

/-- C5 (witness): a repository with an empty declared release list resolves
to exactly `master` and completes normally. -/
theorem process_repo_branch_resolution_case :
    (resolve_branches []).toFinset =
      insert "master" (([] : List Release).filterMap Release.branch).toFinset ∧
    (process_repo sampleEnv sampleRepo []).2.2 = none :=
  ⟨(process_repo_branch_resolution []).1,
   (process_repo_branch_resolution []).2.2.2 sampleEnv sampleRepo [] rfl rfl rfl⟩

/-! ## C4: a per-repository failure is not isolated -/

/-- Collaborators for the failure scenario: repository `a`'s VCS fetch raises
a network error, every other repository is healthy and reports head ids. -/
def failEnv : Env :=
  { vcs_of := fun repo =>
      if repo.uri = "git://example.org/a" then
        { fetch := Except.error "network error", log := fun _ _ => [],
          get_last_id := fun _ => "headA" }
      else
        { fetch := Except.ok (), log := fun _ _ => [[("commit_id", "c1")]],
          get_last_id := fun _ => "headB" },
    rcs_of := fun _ =>
      { setup := Except.ok (), log := fun _ _ => [], get_last_id := fun _ => "headR" },
    process := id,
    mail_log := fun _ => [[("message_id", "m1")]] }

def repoA : Repo := { uri := "git://example.org/a", releases := some [] }

def repoB : Repo := { uri := "git://example.org/b", releases := some [] }

/-- C4 (counterexample): `update_records` has no per-repository exception
handling, so with repository `a` listed first and failing its fetch, the
whole cycle stops at `a`: the final state shows the raised error, the trace
is empty (repository `b` is never synchronized and the mailing list is never
read), and `b`'s `master` commit cursor was not advanced — refuting the claim
that sibling sources are unaffected in the same cycle. -/
theorem update_records_failure_blocks_siblings :
    (update_records failEnv [repoA, repoB] ["mail-list"] []).2.2 = some "network error" ∧
    (update_records failEnv [repoA, repoB] ["mail-list"] []).2.1 = [] ∧
    dfind (update_records failEnv [repoA, repoB] ["mail-list"] []).1
      (vcs_key "git://example.org/b" "master") = none :=
  ⟨rfl, rfl, rfl⟩

/-- C4 (amended): an exception raised while synchronizing one repository
propagates out of `update_records` and aborts the cycle at that repository:
the repositories after it in the list, the mailing lists, and the record
processor's `update()` hook all run only if every earlier repository
succeeded, and on a failure the cycle's result is exactly the state, trace
and error accumulated up to and including the failing repository. -/
theorem update_records_error_propagates (env : Env) (pre : List Repo) (r : Repo)
    (rest : List Repo) (mail_lists : List String) (st : Store) :
    ∀ (st1 st2 : Store) (tr1 tr2 : List Event) (e : String),
      run_repos env pre st = (st1, tr1, none) →
      process_repo env r st1 = (st2, tr2, some e) →
      update_records env (pre ++ r :: rest) mail_lists st = (st2, tr1 ++ tr2, some e) := by
  have main : ∀ (pre : List Repo) (st st1 st2 : Store) (tr1 tr2 : List Event) (e : String),
      run_repos env pre st = (st1, tr1, none) →
      process_repo env r st1 = (st2, tr2, some e) →
      run_repos env (pre ++ r :: rest) st = (st2, tr1 ++ tr2, some e) := by
    intro pre
    induction pre with
    | nil =>
      intro st st1 st2 tr1 tr2 e hpre hr
      have h1 : st1 = st := congrArg (fun p => p.1) hpre.symm
      have h2 : tr1 = [] := congrArg (fun p => p.2.1) hpre.symm
      subst h1
      subst h2
      simp only [List.nil_append, run_repos, hr, List.nil_append]
    | cons p pre' ih =>
      intro st st1 st2 tr1 tr2 e hpre hr
      cases hp : (process_repo env p st).2.2 with
      | some e' =>
        rw [run_repos] at hpre
        rw [hp] at hpre
        exact absurd (congrArg (fun q => q.2.2) hpre) (by simp)
      | none =>
        rw [run_repos] at hpre
        rw [hp] at hpre
        have hst1 : (run_repos env pre' (process_repo env p st).1).1 = st1 :=
          congrArg (fun q => q.1) hpre
        have htr : (process_repo env p st).2.1 ++
            (run_repos env pre' (process_repo env p st).1).2.1 = tr1 :=
          congrArg (fun q => q.2.1) hpre
        have herr : (run_repos env pre' (process_repo env p st).1).2.2 = none :=
          congrArg (fun q => q.2.2) hpre
        have hpre' : run_repos env pre' (process_repo env p st).1 =
            (st1, (run_repos env pre' (process_repo env p st).1).2.1, none) := by
          rw [← hst1, ← herr]
        have hih := ih (process_repo env p st).1 st1 st2
          (run_repos env pre' (process_repo env p st).1).2.1 tr2 e hpre' hr
        rw [List.cons_append, run_repos, hp, hih, ← htr, List.append_assoc]
  intro st1 st2 tr1 tr2 e hpre hr
  have h := main pre st st1 st2 tr1 tr2 e hpre hr
  rw [update_records, h]

/-- C4 (witness): with healthy repository `b` first and failing repository
`a` second, the cycle result is `b`'s state and trace followed by the error
from `a`, with nothing from the trailing repository or the mailing list. -/
theorem update_records_error_propagates_case :
    update_records failEnv ([repoB] ++ repoA :: [repoB]) ["mail-list"] [] =
      ((run_repos failEnv [repoB] []).1,
       (run_repos failEnv [repoB] []).2.1 ++ [],
       some "network error") :=
  update_records_error_propagates failEnv [repoB] repoA [repoB] ["mail-list"] []
    (run_repos failEnv [repoB] []).1 (run_repos failEnv [repoB] []).1
    (run_repos failEnv [repoB] []).2.1 [] "network error" rfl rfl

/-! ## The taxonomy builder (`_read_official_programs_yaml`, main.py
lines 182–241)

The parsed YAML document is a mapping from program name to program
descriptor, modelled as an association list iterated in order.  Each module
group is a `defaultdict` entry `{'modules': [], 'releases': defaultdict(list)}`
whose optional `tag`, `module_group_name` and `id` fields are added by
assignment; a present-with-value key is `some`, an absent key `none`. -/

/-- Python `str.lower()` (per-character lowering). -/
def lowerStr (s : String) : String :=
  String.mk (s.data.map Char.toLower)

/-- Python `str.split(sep)` on a character list: splitting an empty string
yields `[""]`, `n` separators yield `n + 1` fields. -/
def splitOnChar (sep : Char) : List Char → List (List Char)
  | [] => [[]]
  | c :: rest =>
    match splitOnChar sep rest with
    | [] => [[]]
    | h :: t => if c = sep then [] :: h :: t else (c :: h) :: t

/-- `module['repo'].split('/')[1]`, `none` on `IndexError`. -/
def repo_module_name (repo : String) : Option String :=
  ((splitOnChar '/' repo.data).map String.mk)[1]?

structure PModule where
  repo : String
  bootstrapped_since : Option String
  incubated_since : Option String
  mature_since : Option String
  core_since : Option String
  deriving DecidableEq

structure ProgramInfo where
  codename : Option String
  projects : List PModule
  deriving DecidableEq

structure Group where
  modules : List String
  releases : List (String × List String)
  tag : Option String
  module_group_name : Option String
  id : Option String
  deriving DecidableEq

/-- The `defaultdict` default: `{'modules': [], 'releases': defaultdict(list)}`. -/
def emptyGroup : Group :=
  { modules := [], releases := [], tag := none, module_group_name := none, id := none }

abbrev ModuleGroups := List (String × Group)

/-- `module_groups[k]` access-and-mutate with auto-vivification. -/
def mgModify (mg : ModuleGroups) (k : String) (f : Group → Group) : ModuleGroups :=
  dmodify emptyGroup mg k f

/-- `any(key in module for key in RELEASE_TAGS)`. -/
def has_release_tag (m : PModule) : Bool :=
  m.bootstrapped_since.isSome || m.incubated_since.isSome ||
  m.mature_since.isSome || m.core_since.isSome

/-- One iteration of `for release_name in releases`: the `if/elif` chain
updates the running `project_type`, then the module name is appended to
`module_groups[project_type]['releases'][release_name]`. -/
def release_fold_step (m : PModule) (module_name : String)
    (s : String × ModuleGroups) (release_name : String) : String × ModuleGroups :=
  let project_type :=
    if some release_name = m.bootstrapped_since then "official-bootstrap"
    else if some release_name = m.incubated_since then "official-incubation"
    else if some release_name = m.mature_since then "official-mature"
    else if some release_name = m.core_since then "official-core"
    else s.1
  (project_type,
   mgModify s.2 project_type (fun g =>
     { g with releases := dmodify [] g.releases release_name (fun l => l ++ [module_name]) }))

/-- One iteration of `for module in info['projects']`:
`module_name = module['repo'].split('/')[1]` (an `IndexError` when there is
no `/`), append it to the program group's modules, then either walk the
release list starting from `project_type = 'official-other'` or append the
module to the `other` group. -/
def step_module (group_id : String) (release_names : List String)
    (mg : ModuleGroups) (m : PModule) : Except String ModuleGroups :=
  match repo_module_name m.repo with
  | none => Except.error "IndexError: list index out of range"
  | some module_name =>
    let mg := mgModify mg group_id (fun g => { g with modules := g.modules ++ [module_name] })
    if has_release_tag m then
      let releases := release_names.map lowerStr
      Except.ok (releases.foldl (release_fold_step m module_name) ("official-other", mg)).2
    else
      Except.ok (mgModify mg "other" (fun g => { g with modules := g.modules ++ [module_name] }))

/-- The derived group id of a feed entry: `name.lower()`, or
`'<codename>-group'` when a codename is present. -/
def derived_group_id (entry : String × ProgramInfo) : String :=
  match entry.2.codename with
  | some cn => lowerStr cn ++ "-group"
  | none => lowerStr entry.1

/-- `for module in info['projects']`, with an `IndexError` aborting the
whole function. -/
def fold_modules (group_id : String) (release_names : List String) :
    List PModule → ModuleGroups → Except String ModuleGroups
  | [], mg => Except.ok mg
  | m :: rest, mg =>
    match step_module group_id release_names mg m with
    | Except.error e => Except.error e
    | Except.ok mg' => fold_modules group_id release_names rest mg'

/-- One iteration of `for name, info in six.iteritems(content)`. -/
def step_program (release_names : List String) (mg : ModuleGroups)
    (entry : String × ProgramInfo) : Except String ModuleGroups :=
  let display_name :=
    match entry.2.codename with
    | some cn => cn ++ " (" ++ entry.1 ++ ")"
    | none => entry.1
  let group_id := derived_group_id entry
  let mg := mgModify mg group_id (fun g => { g with module_group_name := some display_name })
  let mg := mgModify mg group_id (fun g => { g with tag := some "program" })
  fold_modules group_id release_names entry.2.projects mg

/-- The feed loop, propagating the first raised exception. -/
def fold_programs (release_names : List String) :
    List (String × ProgramInfo) → ModuleGroups → Except String ModuleGroups
  | [], mg => Except.ok mg
  | entry :: rest, mg =>
    match step_program release_names mg entry with
    | Except.error e => Except.error e
    | Except.ok mg' => fold_programs release_names rest mg'

/-- The preamble creating the four fixed `project_type` groups. -/
def official_setup (mg : ModuleGroups) : ModuleGroups :=
  let mg := mgModify mg "official-bootstrap" (fun g => { g with tag := some "project_type" })
  let mg := mgModify mg "official-bootstrap"
    (fun g => { g with module_group_name := some "official-bootstrap" })
  let mg := mgModify mg "official-incubation" (fun g => { g with tag := some "project_type" })
  let mg := mgModify mg "official-incubation"
    (fun g => { g with module_group_name := some "official-incubation" })
  let mg := mgModify mg "official-mature" (fun g => { g with tag := some "project_type" })
  let mg := mgModify mg "official-mature"
    (fun g => { g with module_group_name := some "official-mature" })
  let mg := mgModify mg "official-core" (fun g => { g with tag := some "project_type" })
  let mg := mgModify mg "official-core"
    (fun g => { g with module_group_name := some "official-core" })
  mg

/-- `_read_official_programs_yaml`: create the four official groups, walk
the feed, then set `group['id'] = group_id` for every group. -/
def read_official_programs_yaml (content : List (String × ProgramInfo))
    (release_names : List String) : Except String ModuleGroups :=
  match fold_programs release_names content (official_setup []) with
  | Except.error e => Except.error e
  | Except.ok mg => Except.ok (mg.map (fun p => (p.1, { p.2 with id := some p.1 })))

/-- The group stored under `gid` (the `defaultdict` default when absent). -/
def group_of (mg : ModuleGroups) (gid : String) : Group :=
  (dfind mg gid).getD emptyGroup

/-- The release bucket `module_groups[gid]['releases'][rel]`. -/
def bucket_of (mg : ModuleGroups) (gid rel : String) : List String :=
  (dfind (group_of mg gid).releases rel).getD []

def officialIds : List String :=
  ["official-bootstrap", "official-incubation", "official-mature", "official-core"]

/-! ## C6: taxonomy bucket placement -/

/-- The spec's taxonomy scenario: known releases `[icehouse, juno, kilo]`,
one program with a `mature-since: kilo` module and a module carrying none of
the four status fields. -/
def taxonomyReleases : List String := ["icehouse", "juno", "kilo"]

def fooModule : PModule :=
  { repo := "openstack/foo", bootstrapped_since := none, incubated_since := none,
    mature_since := some "kilo", core_since := none }

def barModule : PModule :=
  { repo := "openstack/bar", bootstrapped_since := none, incubated_since := none,
    mature_since := none, core_since := none }

def taxonomyFeed : List (String × ProgramInfo) :=
  [("Compute", { codename := none, projects := [fooModule, barModule] })]

/-- C6 (counterexample): the `mature-since: kilo` module `foo` is indeed in
`official-mature`'s `kilo` bucket, but it is *also* in `official-other`'s
`icehouse` bucket (and `juno` bucket): the per-release loop appends the module
to the bucket of the *current* `project_type`, which starts at
`official-other` and only becomes `official-mature` when the matching release
is reached — refuting "and in no other release bucket of any group". -/
theorem official_programs_premature_buckets :
    (read_official_programs_yaml taxonomyFeed taxonomyReleases).map
      (fun mg => bucket_of mg "official-mature" "kilo") = Except.ok ["foo"] ∧
    (read_official_programs_yaml taxonomyFeed taxonomyReleases).map
      (fun mg => bucket_of mg "official-other" "icehouse") = Except.ok ["foo"] := by
  constructor
  · rfl
  · rfl

/-- C6 (amended): with releases `[icehouse, juno, kilo]`, a module with
`mature-since: kilo` is listed in `official-mature`'s `kilo` bucket and in
`official-other`'s `icehouse` and `juno` buckets (its status before reaching
maturity), and in no further bucket of any group; a module with none of the
four status fields is appended to the `other` group's module list and
appears in no release bucket of any group. -/
theorem official_programs_taxonomy_buckets :
    (read_official_programs_yaml taxonomyFeed taxonomyReleases).map
      (fun mg => bucket_of mg "official-mature" "kilo") = Except.ok ["foo"] ∧
    (read_official_programs_yaml taxonomyFeed taxonomyReleases).map
      (fun mg => bucket_of mg "official-other" "icehouse") = Except.ok ["foo"] ∧
    (read_official_programs_yaml taxonomyFeed taxonomyReleases).map
      (fun mg => bucket_of mg "official-other" "juno") = Except.ok ["foo"] ∧
    (read_official_programs_yaml taxonomyFeed taxonomyReleases).map
      (fun mg => mg.all (fun p => p.2.releases.all (fun q =>
        if q.2.contains "foo" then
          decide ((p.1, q.1) ∈ [("official-mature", "kilo"), ("official-other", "icehouse"),
            ("official-other", "juno")])
        else true))) = Except.ok true ∧
    (read_official_programs_yaml taxonomyFeed taxonomyReleases).map
      (fun mg => (group_of mg "other").modules) = Except.ok ["bar"] ∧
    (read_official_programs_yaml taxonomyFeed taxonomyReleases).map
      (fun mg => mg.all (fun p => p.2.releases.all (fun q => !q.2.contains "bar"))) =
      Except.ok true := by
  refine ⟨rfl, rfl, rfl, ?_, rfl, ?_⟩
  · rfl
  · rfl

/-! ## C10: group ids and the four official `project_type` groups -/

/-- C10 (counterexample): a feed entry named `Official-Mature` derives group
id `official-mature` and overwrites the fixed group's tag with `program`, so
the four official groups do not always carry tag `project_type`. -/
theorem official_programs_tag_overwrite :
    (read_official_programs_yaml
        [("Official-Mature", { codename := none, projects := [] })] []).map
      (fun mg => (group_of mg "official-mature").tag) = Except.ok (some "program") := rfl

/-- The invariant transported through the feed walk: key uniqueness and key
membership are monotone, and a group's `project_type` tag survives any
mutation that does not write the `tag` field. -/
def official_tag_ok (mg : ModuleGroups) (gid : String) : Prop :=
  ∃ g, dfind mg gid = some g ∧ g.tag = some "project_type"

def Preserves (mg mg' : ModuleGroups) : Prop :=
  ((dkeys mg).Nodup → (dkeys mg').Nodup) ∧
  (∀ k₀, k₀ ∈ dkeys mg → k₀ ∈ dkeys mg') ∧
  (∀ gid, official_tag_ok mg gid → official_tag_ok mg' gid)

theorem preserves_refl (mg : ModuleGroups) : Preserves mg mg :=
  ⟨id, fun _ => id, fun _ => id⟩

theorem preserves_trans {a b c : ModuleGroups} (h1 : Preserves a b) (h2 : Preserves b c) :
    Preserves a c :=
  ⟨fun hn => h2.1 (h1.1 hn), fun k hk => h2.2.1 k (h1.2.1 k hk),
   fun gid ho => h2.2.2 gid (h1.2.2 gid ho)⟩

theorem mgModify_nodup (mg : ModuleGroups) (k : String) (f : Group → Group)
    (h : (dkeys mg).Nodup) : (dkeys (mgModify mg k f)).Nodup := by
  by_cases hm : k ∈ dkeys mg
  · rw [mgModify, dkeys_dmodify_mem _ _ _ _ hm]
    exact h
  · rw [mgModify, dkeys_dmodify_not_mem _ _ _ _ hm]
    exact List.Nodup.append h (List.nodup_singleton k) (by simpa using hm)

theorem mgModify_mem (mg : ModuleGroups) (k : String) (f : Group → Group) (k₀ : String)
    (h : k₀ ∈ dkeys mg) : k₀ ∈ dkeys (mgModify mg k f) := by
  by_cases hm : k ∈ dkeys mg
  · rw [mgModify, dkeys_dmodify_mem _ _ _ _ hm]
    exact h
  · rw [mgModify, dkeys_dmodify_not_mem _ _ _ _ hm]
    exact List.mem_append_left _ h

theorem official_tag_ok_modify_ne (mg : ModuleGroups) (k : String) (f : Group → Group)
    (gid : String) (h : gid ≠ k) (ho : official_tag_ok mg gid) :
    official_tag_ok (mgModify mg k f) gid := by
  obtain ⟨g, hg, ht⟩ := ho
  refine ⟨g, ?_, ht⟩
  rw [mgModify, dfind_dmodify_ne _ _ _ _ _ h]
  exact hg

theorem official_tag_ok_modify_keep (mg : ModuleGroups) (k : String) (f : Group → Group)
    (gid : String) (hf : ∀ g, (f g).tag = g.tag) (ho : official_tag_ok mg gid) :
    official_tag_ok (mgModify mg k f) gid := by
  by_cases hk : gid = k
  · subst hk
    obtain ⟨g, hg, ht⟩ := ho
    refine ⟨f g, ?_, by rw [hf g]; exact ht⟩
    rw [mgModify, dfind_dmodify_self, hg]
    rfl
  · exact official_tag_ok_modify_ne mg k f gid hk ho

theorem preserves_modify_keep (mg : ModuleGroups) (k : String) (f : Group → Group)
    (hf : ∀ g, (f g).tag = g.tag) : Preserves mg (mgModify mg k f) :=
  ⟨mgModify_nodup mg k f, mgModify_mem mg k f,
   fun gid => official_tag_ok_modify_keep mg k f gid hf⟩

theorem preserves_release_fold (m : PModule) (mn : String) (rels : List String) :
    ∀ s : String × ModuleGroups,
      Preserves s.2 (rels.foldl (release_fold_step m mn) s).2 := by
  induction rels with
  | nil => intro s; exact preserves_refl _
  | cons r rest ih =>
    intro s
    have h1 : Preserves s.2 (release_fold_step m mn s r).2 :=
      preserves_modify_keep s.2 _ _ (fun g => rfl)
    exact preserves_trans h1 (ih (release_fold_step m mn s r))

theorem preserves_step_module (group_id : String) (rels : List String)
    (mg : ModuleGroups) (m : PModule) (mg' : ModuleGroups)
    (h : step_module group_id rels mg m = Except.ok mg') : Preserves mg mg' := by
  rw [step_module] at h
  cases hm : repo_module_name m.repo with
  | none =>
    rw [hm] at h
    dsimp only at h
    cases h
  | some mn =>
    rw [hm] at h
    dsimp only at h
    by_cases ht : has_release_tag m
    · rw [if_pos ht] at h
      injection h with h2
      subst h2
      have h1 : Preserves mg (mgModify mg group_id
          (fun g => { g with modules := g.modules ++ [mn] })) :=
        preserves_modify_keep mg group_id _ (fun g => rfl)
      exact preserves_trans h1 (preserves_release_fold m mn (rels.map lowerStr)
        ("official-other", mgModify mg group_id
          (fun g => { g with modules := g.modules ++ [mn] })))
    · rw [if_neg ht] at h
      injection h with h2
      subst h2
      have h1 : Preserves mg (mgModify mg group_id
          (fun g => { g with modules := g.modules ++ [mn] })) :=
        preserves_modify_keep mg group_id _ (fun g => rfl)
      exact preserves_trans h1 (preserves_modify_keep _ "other" _ (fun g => rfl))

theorem preserves_fold_modules (group_id : String) (rels : List String)
    (projects : List PModule) :
    ∀ mg mg', fold_modules group_id rels projects mg = Except.ok mg' → Preserves mg mg' := by
  induction projects with
  | nil =>
    intro mg mg' h
    injection h with h2
    subst h2
    exact preserves_refl _
  | cons m rest ih =>
    intro mg mg' h
    rw [fold_modules] at h
    cases hs : step_module group_id rels mg m with
    | error e =>
      rw [hs] at h
      cases h
    | ok mg₁ =>
      rw [hs] at h
      exact preserves_trans (preserves_step_module group_id rels mg m mg₁ hs) (ih mg₁ mg' h)

theorem preserves_step_program (rels : List String) (entry : String × ProgramInfo)
    (mg mg' : ModuleGroups) (h : step_program rels mg entry = Except.ok mg') :
    ((dkeys mg).Nodup → (dkeys mg').Nodup) ∧
    (∀ k₀, k₀ ∈ dkeys mg → k₀ ∈ dkeys mg') ∧
    (∀ gid, gid ≠ derived_group_id entry →
      official_tag_ok mg gid → official_tag_ok mg' gid) := by
  rw [step_program] at h
  have hfold := preserves_fold_modules (derived_group_id entry) rels entry.2.projects _ _ h
  refine ⟨?_, ?_, ?_⟩
  · intro hn
    exact hfold.1 (mgModify_nodup _ _ _ (mgModify_nodup _ _ _ hn))
  · intro k₀ hk
    exact hfold.2.1 k₀ (mgModify_mem _ _ _ _ (mgModify_mem _ _ _ _ hk))
  · intro gid hgid ho
    exact hfold.2.2 gid
      (official_tag_ok_modify_ne _ _ _ _ hgid
        (official_tag_ok_modify_keep _ _ _ _ (fun g => rfl) ho))

theorem preserves_fold_programs (rels : List String)
    (content : List (String × ProgramInfo)) :
    ∀ mg mg', fold_programs rels content mg = Except.ok mg' →
      ((dkeys mg).Nodup → (dkeys mg').Nodup) ∧
      (∀ k₀, k₀ ∈ dkeys mg → k₀ ∈ dkeys mg') ∧
      (∀ gid, (∀ entry ∈ content, gid ≠ derived_group_id entry) →
        official_tag_ok mg gid → official_tag_ok mg' gid) := by
  induction content with
  | nil =>
    intro mg mg' h
    injection h with h2
    subst h2
    exact ⟨id, fun _ => id, fun _ _ => id⟩
  | cons entry rest ih =>
    intro mg mg' h
    rw [fold_programs] at h
    cases hs : step_program rels mg entry with
    | error e =>
      rw [hs] at h
      cases h
    | ok mg₁ =>
      rw [hs] at h
      obtain ⟨h1, h2, h3⟩ := preserves_step_program rels entry mg mg₁ hs
      obtain ⟨i1, i2, i3⟩ := ih mg₁ mg' h
      refine ⟨fun hn => i1 (h1 hn), fun k₀ hk => i2 k₀ (h2 k₀ hk), ?_⟩
      intro gid hgid ho
      exact i3 gid (fun e he => hgid e (List.mem_cons_of_mem _ he))
        (h3 gid (hgid entry (List.mem_cons_self _ _)) ho)

theorem dkeys_map_idset (mg : ModuleGroups) :
    dkeys (mg.map (fun p => (p.1, { p.2 with id := some p.1 }))) = dkeys mg := by
  induction mg with
  | nil => rfl
  | cons p rest ih =>
    simp only [dkeys, List.map_cons] at ih ⊢
    rw [ih]

theorem dfind_map_idset (mg : ModuleGroups) (k : String) :
    dfind (mg.map (fun p => (p.1, { p.2 with id := some p.1 }))) k =
      (dfind mg k).map (fun g => { g with id := some k }) := by
  induction mg with
  | nil => rfl
  | cons p rest ih =>
    by_cases h : p.1 = k
    · simp [dfind, h]
    · simp [dfind, h, ih]

/-- C10 (amended): every group of the returned taxonomy carries an `id`
field equal to the key under which it is stored, the keys (hence the ids) are
unique, and the four official `project_type` groups are always present; each
of the four carries tag `project_type` provided no feed entry's derived group
id collides with one of the four official ids (a program named e.g.
`Official-Mature` overwrites the tag with `program`). -/
theorem official_programs_group_invariants (content : List (String × ProgramInfo))
    (release_names : List String) (mg : ModuleGroups)
    (h : read_official_programs_yaml content release_names = Except.ok mg) :
    (∀ p ∈ mg, p.2.id = some p.1) ∧
    (dkeys mg).Nodup ∧
    (∀ gid ∈ officialIds, gid ∈ dkeys mg) ∧
    ((∀ entry ∈ content, derived_group_id entry ∉ officialIds) →
      ∀ gid ∈ officialIds, ∃ g, dfind mg gid = some g ∧ g.tag = some "project_type") := by
  rw [read_official_programs_yaml] at h
  cases hf : fold_programs release_names content (official_setup []) with
  | error e =>
    rw [hf] at h
    cases h
  | ok mg₁ =>
    rw [hf] at h
    injection h with h2
    subst h2
    obtain ⟨p1, p2, p3⟩ := preserves_fold_programs release_names content (official_setup [])
      mg₁ hf
    refine ⟨?_, ?_, ?_, ?_⟩
    · intro p hp
      obtain ⟨q, hq, rfl⟩ := List.mem_map.mp hp
      rfl
    · rw [dkeys_map_idset]
      exact p1 (by decide)
    · intro gid hgid
      rw [dkeys_map_idset]
      exact p2 gid hgid
    · intro hsafe gid hgid
      have hne : ∀ entry ∈ content, gid ≠ derived_group_id entry :=
        fun e he hEq => hsafe e he (hEq ▸ hgid)
      have h0 : official_tag_ok (official_setup []) gid := by
        simp only [officialIds, List.mem_cons, List.not_mem_nil, or_false] at hgid
        rcases hgid with rfl | rfl | rfl | rfl <;> exact ⟨_, rfl, rfl⟩
      obtain ⟨g, hg, ht⟩ := p3 gid hne h0
      refine ⟨{ g with id := some gid }, ?_, ht⟩
      rw [dfind_map_idset, hg]
      rfl

/-- The taxonomy computed from an empty feed. -/
def emptyFeedGroups : ModuleGroups :=
  [("official-bootstrap",
    { modules := [], releases := [], tag := some "project_type",
      module_group_name := some "official-bootstrap", id := some "official-bootstrap" }),
   ("official-incubation",
    { modules := [], releases := [], tag := some "project_type",
      module_group_name := some "official-incubation", id := some "official-incubation" }),
   ("official-mature",
    { modules := [], releases := [], tag := some "project_type",
      module_group_name := some "official-mature", id := some "official-mature" }),
   ("official-core",
    { modules := [], releases := [], tag := some "project_type",
      module_group_name := some "official-core", id := some "official-core" })]

/-- C10 (witness): on the empty feed all four official groups are present,
ids match keys and are unique, and `official-mature` carries tag
`project_type`. -/
theorem official_programs_group_invariants_case :
    (∀ p ∈ emptyFeedGroups, p.2.id = some p.1) ∧
    (dkeys emptyFeedGroups).Nodup ∧
    (∀ gid ∈ officialIds, gid ∈ dkeys emptyFeedGroups) ∧
    (∃ g, dfind emptyFeedGroups "official-mature" = some g ∧
      g.tag = some "project_type") :=
  ⟨(official_programs_group_invariants [] [] emptyFeedGroups rfl).1,
   (official_programs_group_invariants [] [] emptyFeedGroups rfl).2.1,
   (official_programs_group_invariants [] [] emptyFeedGroups rfl).2.2.1,
   (official_programs_group_invariants [] [] emptyFeedGroups rfl).2.2.2
     (fun e he => absurd he (List.not_mem_nil e)) "official-mature" (by decide)⟩

end Spectrometer
